import Mathlib

/-!
# Verification of the L4 hash-table snapshot serializer

Shallow embedding of `inc/L4/HashTable/ReadWrite/Serializer.h`: the
versioned snapshot serialization protocol for an in-memory hash table.

A hash table is modelled by its serialization-relevant observable state:
an opaque settings blob, the ordered record sequence that traversal
yields, and the two performance counters
(`RecordsCountSavedFromSerializer`, `RecordsCountLoadedFromSerializer`).
Bytes are `Nat`s below 256; the byte stream is a `List Nat`.  All
observable operations on the stream and the table (Begin/End bracketing,
byte reads and writes, record inserts, counter increments) are logged as
an event trace so that ordering contracts can be stated.  Fallible
deserialization returns `Except`, with the error carrying the state at
the fault so that post-fault observations (remaining bytes, counter
values) can be reasoned about.
-/

namespace L4

/-- Error taxonomy of the serialization core (spec §7): short stream
transfers, an unregistered version tag, and an invocation of the replay
guard (`RuntimeException` thrown from `EpochActionManager::RegisterAction`,
Serializer.h lines 197-203). -/
inductive SerError where
  | streamFault : SerError
  | unsupportedVersion : Nat → SerError
  | replayInvariantViolation : SerError
  deriving DecidableEq

/-- Observable operations performed during serialization/deserialization:
stream bracketing (`Begin`/`End`), single-byte reads and writes, a record
insert through `WritableHashTable::Add`, and an increment of the
records-read perf counter. -/
inductive Ev where
  | beginStream : Ev
  | endStream : Ev
  | readByteEv : Nat → Ev
  | writeByteEv : Nat → Ev
  | insertEv : List Nat → Ev
  | incrementEv : Ev
  deriving DecidableEq

/-- One key/value record: a key byte-block and a value byte-block
(`IReadOnlyHashTable::Key` / `Value`). -/
structure Record where
  key : List Nat
  value : List Nat
  deriving DecidableEq

/-- The serialization-relevant state of a hash table: `m_setting` (an
opaque fixed-size blob, copied verbatim), the record sequence in
traversal order, and the two perf counters mutated by the
serializer/deserializer. -/
structure HashTableModel where
  setting : List Nat
  records : List Record
  recordsWritten : Nat
  recordsRead : Nat
  deriving DecidableEq

/-- Modelled from the spec: `SerializerHelper` is not under `src`; per
spec §4.1/§6 each length is written as a fixed-width unsigned 32-bit
integer (rendered little-endian, four bytes). -/
def encodeU32 (n : Nat) : List Nat :=
  [n % 256, n / 256 % 256, n / 65536 % 256, n / 16777216 % 256]

/-- The wire image of one record (Serializer.h lines 98-106):
key size, key bytes, value size, value bytes, in that order. -/
def encodeRecord (r : Record) : List Nat :=
  encodeU32 r.key.length ++ r.key ++ encodeU32 r.value.length ++ r.value

/-- The serializer's record loop (Serializer.h lines 96-109): for each
record emitted by the iterator, write the presence flag `true` (byte 1),
then the record image, and increment the records-written counter.
Returns the emitted bytes and the final counter value. -/
def serializeRecords : List Record → List Nat × Nat
  | [] => ([], 0)
  | r :: rs =>
    let p := serializeRecords rs
    (1 :: (encodeRecord r ++ p.1), p.2 + 1)

/-- `Current::c_version` (Serializer.h line 61). -/
def Current.c_version : Nat := 3

/-- Result of a serialization run: the table with its updated perf data,
the event trace of the run, and the bytes written to the stream. -/
structure SerializeResult where
  table : HashTableModel
  events : List Ev
  output : List Nat
  deriving DecidableEq

/-- `Current::Serializer::Serialize` (Serializer.h lines 78-117):
`Begin`, reset the records-written counter to zero, write the version
byte, write the settings blob verbatim, walk the read-only iterator
emitting flagged records while counting them, write the terminating
flag `false` (byte 0), and `End`. -/
def Current.Serializer.Serialize (t : HashTableModel) : SerializeResult :=
  let p := serializeRecords t.records
  let out := Current.c_version :: (t.setting ++ (p.1 ++ [0]))
  { table := { t with recordsWritten := p.2 },
    events := Ev.beginStream :: (out.map Ev.writeByteEv ++ [Ev.endStream]),
    output := out }

/-- The driver `Serializer::Serialize` (Serializer.h lines 221-226):
delegates unconditionally to `Current::Serializer`. -/
def Serializer.Serialize (t : HashTableModel) : SerializeResult :=
  Current.Serializer.Serialize t

/-- Deserialization-side state: the bytes remaining in the stream, the
event trace so far, and the records-read perf counter of the table under
construction. -/
structure DState where
  data : List Nat
  events : List Ev
  recordsRead : Nat
  deriving DecidableEq

/-- Modelled from the spec: `IStreamReader::Read` of one byte ("Read:
exact-count, fault on short transfer", spec §6).  Used for the version
byte and (via `DeserializerHelper`) for the presence flag. -/
def readByte (st : DState) : Except (SerError × DState) (Nat × DState) :=
  match st.data with
  | [] => .error (.streamFault, st)
  | b :: rest =>
    .ok (b, { st with data := rest, events := st.events ++ [Ev.readByteEv b] })

/-- Modelled from the spec: `IStreamReader::Read` of `n` bytes into a
buffer sized exactly `n` ("exact-count, fault on short transfer",
spec §6); used for the settings blob and for key/value byte blocks. -/
def readBytes (n : Nat) (st : DState) : Except (SerError × DState) (List Nat × DState) :=
  if n ≤ st.data.length then
    .ok (st.data.take n,
      { st with
          data := st.data.drop n,
          events := st.events ++ (st.data.take n).map Ev.readByteEv })
  else
    .error (.streamFault, st)

/-- Reassemble a 32-bit length from its four little-endian bytes. -/
def fromLE4 (bs : List Nat) : Nat :=
  bs.getD 0 0 + 256 * bs.getD 1 0 + 65536 * bs.getD 2 0 + 16777216 * bs.getD 3 0

/-- Modelled from the spec: `DeserializerHelper` read of a fixed-width
unsigned 32-bit length field (spec §4.1). -/
def readU32 (st : DState) : Except (SerError × DState) (Nat × DState) := do
  let (bs, st1) ← readBytes 4 st
  .ok (fromLE4 bs, st1)

/-- One length-prefixed byte block, as read by the deserializer loop
(Serializer.h lines 165-168 and 170-173): read the size, size the buffer
exactly by it, then read that many bytes. -/
def decodeBlock (st : DState) : Except (SerError × DState) (List Nat × DState) := do
  let (n, st1) ← readU32 st
  let (bs, st2) ← readBytes n st1
  .ok (bs, st2)

/-- The replay guard `Current::Deserializer::EpochActionManager`
(Serializer.h lines 194-204): its only operation `RegisterAction` always
throws, because a correct replay never needs deferred reclamation. -/
def EpochActionManager.RegisterAction (st : DState) : Except (SerError × DState) Unit :=
  .error (.replayInvariantViolation, st)

/-- Modelled from the spec: `WritableHashTable::Add` is not under `src`.
Per spec §4.4/§5, inserting a key that is already present makes the write
path register a deferred-reclamation action for the displaced record with
the bound `IEpochActionManager` — here the replay guard, which throws —
while a fresh key is simply inserted. -/
def WritableHashTable.Add (records : List Record) (k v : List Nat) (st : DState) :
    Except (SerError × DState) (List Record × DState) :=
  if k ∈ records.map Record.key then do
    let _ ← EpochActionManager.RegisterAction st
    .ok (records, st)
  else
    .ok (records ++ [{ key := k, value := v }],
      { st with events := st.events ++ [Ev.insertEv k] })

/-- `perfData.Increment(RecordsCountLoadedFromSerializer)`
(Serializer.h line 179). -/
def incrementRead (st : DState) : DState :=
  { st with
      recordsRead := st.recordsRead + 1,
      events := st.events ++ [Ev.incrementEv] }

/-- The replay loop of `Current::Deserializer::Deserialize`
(Serializer.h lines 160-180), entered with the just-read presence flag.
Body order is exactly the source's: decode the key block, decode the
value block, `Add` through the writable table, read the next presence
flag, and only then increment the records-read counter.  The flag test
renders the C++ `while (hasMoreData)`; the spec's wire format uses only
flag bytes 1 (record follows) and 0 (end of records), and the lemmas
below exercise only those two values — the reading of the absent
`DeserializerHelper` bool deserialization at other byte values is not
determined by the repository.  The fuel argument bounds iteration; the
driver passes one more than the stream length, which a loop consuming at
least one byte per iteration can never exhaust. -/
def replayLoop : Nat → List Record → Nat → DState →
    Except (SerError × DState) (List Record × DState)
  | 0, _, _, st => .error (.streamFault, st)
  | fuel + 1, records, flag, st =>
    if flag = 0 then
      .ok (records, st)
    else do
      let (keyBytes, st1) ← decodeBlock st
      let (valueBytes, st2) ← decodeBlock st1
      let (records1, st3) ← WritableHashTable.Add records keyBytes valueBytes st2
      let (nextFlag, st4) ← readByte st3
      let st5 := incrementRead st4
      replayLoop fuel records1 nextFlag st5

/-- `Current::Deserializer::Deserialize` (Serializer.h lines 131-188):
read the settings blob, allocate a fresh empty table from it, bind a
writable view guarded by the replay guard, replay flagged records, call
`reader.End()`, and return the owned table.  `settingSize` is
`sizeof(HashTable::Setting)`. -/
def Current.Deserializer.Deserialize (settingSize : Nat) (st : DState) :
    Except (SerError × DState) (HashTableModel × DState) := do
  let (setting, st1) ← readBytes settingSize st
  let fuel := st1.data.length + 1
  let (hasMoreData, st2) ← readByte st1
  let (records, st3) ← replayLoop fuel [] hasMoreData st2
  let st4 : DState := { st3 with events := st3.events ++ [Ev.endStream] }
  .ok ({ setting := setting, records := records,
         recordsWritten := 0, recordsRead := st4.recordsRead }, st4)

/-- The tags registered in the `Deprecated` namespace
(Serializer.h lines 52-54): the namespace is empty in this source. -/
def deprecatedVersions : List Nat := []

/-- The driver `Deserializer::Deserialize` (Serializer.h lines 241-259):
call `reader.Begin()`, read the version byte, dispatch on it — only
`Current::c_version` is registered — and otherwise throw the
unsupported-version error naming the tag, without reading further. -/
def Deserializer.Deserialize (settingSize : Nat) (input : List Nat) :
    Except (SerError × DState) (HashTableModel × DState) := do
  let st : DState := { data := input, events := [Ev.beginStream], recordsRead := 0 }
  let (version, st1) ← readByte st
  if version = Current.c_version then
    Current.Deserializer.Deserialize settingSize st1
  else
    .error (.unsupportedVersion version, st1)

/-- The table produced by a deserialization outcome, if any. -/
def resultTable : Except (SerError × DState) (HashTableModel × DState) → Option HashTableModel
  | .ok (t, _) => some t
  | .error _ => none

/-- The error of a deserialization outcome, if any. -/
def resultErr : Except (SerError × DState) (HashTableModel × DState) → Option SerError
  | .ok _ => none
  | .error (e, _) => some e

/-- The final deserialization-side state, on either outcome. -/
def resultState : Except (SerError × DState) (HashTableModel × DState) → DState
  | .ok (_, st) => st
  | .error (_, st) => st

/-- Number of record inserts (`WritableHashTable::Add` completions) in a
trace. -/
def insCount (evs : List Ev) : Nat :=
  evs.countP fun e => match e with | Ev.insertEv _ => true | _ => false

/-- Key and value sizes representable in the u32 length fields. -/
def lensOK (rs : List Record) : Prop :=
  ∀ r ∈ rs, r.key.length < 4294967296 ∧ r.value.length < 4294967296

instance lensOK_decidable (rs : List Record) : Decidable (lensOK rs) := by
  unfold lensOK
  infer_instance

/-- The presence flag the serializer emits before a record list: 1 when a
record follows, 0 at the end. -/
def headFlag : List Record → Nat
  | [] => 0
  | _ :: _ => 1

/-- The serialized record section with the leading presence flag already
consumed: each record image is followed by the next presence flag. -/
def bodyBytes : List Record → List Nat
  | [] => []
  | r :: rs => encodeRecord r ++ headFlag rs :: bodyBytes rs

/-- The full serialized record section, flags included, ending with the
terminating 0 flag. -/
def bytesFor (rs : List Record) : List Nat := headFlag rs :: bodyBytes rs

/-! ## Reduction lemmas for the stream primitives and the codec -/

theorem exbind_ok {α β : Type} (a : α) (f : α → Except (SerError × DState) β) :
    (Except.ok a >>= f : Except (SerError × DState) β) = f a := rfl

theorem exbind_error {α β : Type} (e : SerError × DState) (f : α → Except (SerError × DState) β) :
    (Except.error e >>= f : Except (SerError × DState) β) = .error e := rfl

theorem readByte_cons (b : Nat) (rest : List Nat) (evs : List Ev) (cnt : Nat) :
    readByte ⟨b :: rest, evs, cnt⟩ = .ok (b, ⟨rest, evs ++ [Ev.readByteEv b], cnt⟩) := rfl

theorem readByte_nil (evs : List Ev) (cnt : Nat) :
    readByte ⟨[], evs, cnt⟩ = .error (.streamFault, ⟨[], evs, cnt⟩) := rfl

theorem readBytes_exact (bs rest : List Nat) (evs : List Ev) (cnt : Nat) :
    readBytes bs.length ⟨bs ++ rest, evs, cnt⟩
      = .ok (bs, ⟨rest, evs ++ bs.map Ev.readByteEv, cnt⟩) := by
  unfold readBytes
  rw [if_pos (by simp)]
  simp [List.take_left, List.drop_left]

theorem encodeU32_length (n : Nat) : (encodeU32 n).length = 4 := rfl

theorem fromLE4_encodeU32 (n : Nat) (h : n < 4294967296) : fromLE4 (encodeU32 n) = n := by
  show n % 256 + 256 * (n / 256 % 256) + 65536 * (n / 65536 % 256)
      + 16777216 * (n / 16777216 % 256) = n
  omega

theorem readU32_encode (n : Nat) (rest : List Nat) (evs : List Ev) (cnt : Nat)
    (h : n < 4294967296) :
    readU32 ⟨encodeU32 n ++ rest, evs, cnt⟩
      = .ok (n, ⟨rest, evs ++ (encodeU32 n).map Ev.readByteEv, cnt⟩) := by
  have h4 : readBytes 4 ⟨encodeU32 n ++ rest, evs, cnt⟩
      = .ok (encodeU32 n, ⟨rest, evs ++ (encodeU32 n).map Ev.readByteEv, cnt⟩) :=
    readBytes_exact (encodeU32 n) rest evs cnt
  unfold readU32
  rw [h4]
  simp only [exbind_ok, fromLE4_encodeU32 n h]

theorem decodeBlock_encode (bs rest : List Nat) (evs : List Ev) (cnt : Nat)
    (h : bs.length < 4294967296) :
    decodeBlock ⟨encodeU32 bs.length ++ (bs ++ rest), evs, cnt⟩
      = .ok (bs, ⟨rest, evs ++ (encodeU32 bs.length ++ bs).map Ev.readByteEv, cnt⟩) := by
  unfold decodeBlock
  rw [readU32_encode _ _ _ _ h]
  simp only [exbind_ok]
  rw [readBytes_exact bs rest]
  simp [exbind_ok, List.map_append, List.append_assoc]

theorem add_fresh (records : List Record) (k v : List Nat) (d : List Nat) (evs : List Ev)
    (cnt : Nat) (h : k ∉ records.map Record.key) :
    WritableHashTable.Add records k v ⟨d, evs, cnt⟩
      = .ok (records ++ [⟨k, v⟩], ⟨d, evs ++ [Ev.insertEv k], cnt⟩) := by
  unfold WritableHashTable.Add
  rw [if_neg h]

theorem add_dup (records : List Record) (k v : List Nat) (st : DState)
    (h : k ∈ records.map Record.key) :
    WritableHashTable.Add records k v st = .error (.replayInvariantViolation, st) := by
  unfold WritableHashTable.Add
  rw [if_pos h]
  rfl

/-! ## Shape of the serializer's output -/

theorem serializeRecords_bytes (rs : List Record) :
    (serializeRecords rs).1 ++ [0] = bytesFor rs := by
  induction rs with
  | nil => rfl
  | cons r rs ih =>
    show (1 :: (encodeRecord r ++ (serializeRecords rs).1)) ++ [0]
        = 1 :: (encodeRecord r ++ bytesFor rs)
    rw [← ih]
    simp [List.append_assoc]

theorem serializeRecords_count (rs : List Record) :
    (serializeRecords rs).2 = rs.length := by
  induction rs with
  | nil => rfl
  | cons r rs ih => simp [serializeRecords, ih]

theorem serialize_output (t : HashTableModel) :
    (Serializer.Serialize t).output
      = Current.c_version :: (t.setting ++ bytesFor t.records) := by
  show Current.c_version :: (t.setting ++ ((serializeRecords t.records).1 ++ [0]))
      = Current.c_version :: (t.setting ++ bytesFor t.records)
  rw [serializeRecords_bytes]

theorem serialize_table (t : HashTableModel) :
    (Serializer.Serialize t).table = { t with recordsWritten := t.records.length } := by
  show { t with recordsWritten := (serializeRecords t.records).2 }
      = { t with recordsWritten := t.records.length }
  rw [serializeRecords_count]

theorem encodeRecord_length (r : Record) :
    (encodeRecord r).length = 8 + r.key.length + r.value.length := by
  simp [encodeRecord, encodeU32]
  omega

theorem bodyBytes_length_ge (rs : List Record) : rs.length ≤ (bodyBytes rs).length := by
  induction rs with
  | nil => simp [bodyBytes]
  | cons r rs ih =>
    simp [bodyBytes]
    omega

theorem serializeRecords_length_ge (rs : List Record) :
    rs.length ≤ (serializeRecords rs).1.length := by
  induction rs with
  | nil => simp [serializeRecords]
  | cons r rs ih =>
    simp [serializeRecords]
    omega

/-! ## Decoding a serialized record -/

theorem decodeBlock_record_key (r : Record) (rest : List Nat) (evs : List Ev) (cnt : Nat)
    (hk : r.key.length < 4294967296) :
    decodeBlock ⟨encodeRecord r ++ rest, evs, cnt⟩
      = .ok (r.key,
          ⟨encodeU32 r.value.length ++ (r.value ++ rest),
           evs ++ (encodeU32 r.key.length ++ r.key).map Ev.readByteEv, cnt⟩) := by
  have hshape : encodeRecord r ++ rest
      = encodeU32 r.key.length ++ (r.key ++ (encodeU32 r.value.length ++ (r.value ++ rest))) := by
    simp [encodeRecord, List.append_assoc]
  rw [hshape, decodeBlock_encode _ _ _ _ hk]

/-! ## The replay loop on a well-formed record section -/

theorem replayLoop_ok (rs : List Record) :
    ∀ (acc : List Record) (fuel cnt : Nat) (evs : List Ev) (tail : List Nat),
      rs.length < fuel →
      lensOK rs →
      ((acc ++ rs).map Record.key).Nodup →
      ∃ evs', replayLoop fuel acc (headFlag rs) ⟨bodyBytes rs ++ tail, evs, cnt⟩
        = .ok (acc ++ rs, ⟨tail, evs', cnt + rs.length⟩) := by
  induction rs with
  | nil =>
    intro acc fuel cnt evs tail hfuel _ _
    cases fuel with
    | zero => exact absurd hfuel (by omega)
    | succ f =>
      refine ⟨evs, ?_⟩
      simp [replayLoop, headFlag, bodyBytes]
  | cons r rs' ih =>
    intro acc fuel cnt evs tail hfuel hlens hnd
    cases fuel with
    | zero => exact absurd hfuel (by omega)
    | succ f =>
      have hk : r.key.length < 4294967296 := (hlens r (by simp)).1
      have hv : r.value.length < 4294967296 := (hlens r (by simp)).2
      have hnd_maps : (List.map Record.key acc ++ r.key :: List.map Record.key rs').Nodup := by
        simpa [List.map_append] using hnd
      have hmid : ((r.key : List Nat)
          :: (List.map Record.key acc ++ List.map Record.key rs')).Nodup :=
        List.nodup_middle.mp hnd_maps
      have hfresh : r.key ∉ acc.map Record.key := fun hmem =>
        (List.nodup_cons.mp hmid).1 (List.mem_append_left _ hmem)
      have hdata : bodyBytes (r :: rs') ++ tail
          = encodeRecord r ++ (headFlag rs' :: (bodyBytes rs' ++ tail)) := by
        simp [bodyBytes, List.append_assoc]
      rw [show headFlag (r :: rs') = 1 from rfl, hdata]
      simp only [replayLoop]
      rw [if_neg (by omega : ¬(1 : Nat) = 0)]
      rw [decodeBlock_record_key r _ _ _ hk]
      simp only [exbind_ok]
      rw [decodeBlock_encode r.value _ _ _ hv]
      simp only [exbind_ok]
      rw [add_fresh _ _ _ _ _ _ hfresh]
      simp only [exbind_ok]
      rw [readByte_cons]
      simp only [exbind_ok, incrementRead]
      have hnd' : (((acc ++ [r]) ++ rs').map Record.key).Nodup := by
        rw [show (acc ++ [r]) ++ rs' = acc ++ r :: rs' by simp]
        exact hnd
      obtain ⟨evs', hE⟩ := ih (acc ++ [r]) f (cnt + 1)
        (evs ++ (encodeU32 r.key.length ++ r.key).map Ev.readByteEv
             ++ (encodeU32 r.value.length ++ r.value).map Ev.readByteEv
             ++ [Ev.insertEv r.key] ++ [Ev.readByteEv (headFlag rs')] ++ [Ev.incrementEv])
        tail (by simpa using Nat.lt_of_succ_lt_succ hfuel)
        (fun x hx => hlens x (by simp [hx]))
        hnd'
      refine ⟨evs', ?_⟩
      rw [show (acc ++ [{ key := r.key, value := r.value }] : List Record) = acc ++ [r] from rfl]
      rw [hE]
      simp [List.append_assoc]
      omega

/-! ## End-to-end deserialization of a well-formed stream -/

theorem bytesFor_cons_shape (rs : List Record) (tail : List Nat) :
    bytesFor rs ++ tail = headFlag rs :: (bodyBytes rs ++ tail) := by
  simp [bytesFor]

theorem deserialize_ok (settings : List Nat) (rs : List Record) (tail : List Nat)
    (hlens : lensOK rs) (hnd : (rs.map Record.key).Nodup) :
    ∃ evs', Deserializer.Deserialize settings.length
        (Current.c_version :: (settings ++ (bytesFor rs ++ tail)))
      = .ok ({ setting := settings, records := rs, recordsWritten := 0,
               recordsRead := rs.length },
             ⟨tail, evs', rs.length⟩) := by
  have hfuel : rs.length < (headFlag rs :: (bodyBytes rs ++ tail)).length := by
    have := bodyBytes_length_ge rs
    simp [List.length_append]
    omega
  simp only [Deserializer.Deserialize, Current.Deserializer.Deserialize]
  rw [readByte_cons]
  simp only [exbind_ok]
  rw [if_pos trivial]
  rw [readBytes_exact settings (bytesFor rs ++ tail)]
  simp only [exbind_ok]
  rw [bytesFor_cons_shape]
  rw [readByte_cons]
  simp only [exbind_ok]
  obtain ⟨evs', hE⟩ := replayLoop_ok rs []
    ((headFlag rs :: (bodyBytes rs ++ tail)).length + 1) 0
    ([Ev.beginStream] ++ [Ev.readByteEv Current.c_version]
      ++ settings.map Ev.readByteEv ++ [Ev.readByteEv (headFlag rs)])
    tail (by omega) hlens (by simpa using hnd)
  refine ⟨evs' ++ [Ev.endStream], ?_⟩
  simp only [List.append_assoc] at hE ⊢
  rw [hE]
  simp [exbind_ok]

/-! ## The replay loop on a stream with a duplicated key -/

theorem nodup_snoc_key (acc : List Record) (r : Record)
    (hacc : (acc.map Record.key).Nodup) (hmem : r.key ∉ acc.map Record.key) :
    ((acc ++ [r]).map Record.key).Nodup := by
  rw [List.map_append, List.nodup_append]
  refine ⟨hacc, by simp, ?_⟩
  intro a ha hb
  simp only [List.map_cons, List.map_nil, List.mem_singleton] at hb
  subst hb
  exact hmem ha

theorem replayLoop_dup (rs : List Record) :
    ∀ (acc : List Record) (fuel cnt : Nat) (evs : List Ev) (tail : List Nat),
      rs.length < fuel →
      lensOK rs →
      (acc.map Record.key).Nodup →
      ¬ ((acc ++ rs).map Record.key).Nodup →
      ∃ st, replayLoop fuel acc (headFlag rs) ⟨bodyBytes rs ++ tail, evs, cnt⟩
        = .error (.replayInvariantViolation, st) := by
  induction rs with
  | nil =>
    intro acc fuel cnt evs tail _ _ hacc hdup
    exact absurd (by simpa using hacc) (by simpa using hdup)
  | cons r rs' ih =>
    intro acc fuel cnt evs tail hfuel hlens hacc hdup
    cases fuel with
    | zero => exact absurd hfuel (by omega)
    | succ f =>
      have hk := (hlens r (by simp)).1
      have hv := (hlens r (by simp)).2
      have hdata : bodyBytes (r :: rs') ++ tail
          = encodeRecord r ++ (headFlag rs' :: (bodyBytes rs' ++ tail)) := by
        simp [bodyBytes, List.append_assoc]
      rw [show headFlag (r :: rs') = 1 from rfl, hdata]
      simp only [replayLoop]
      rw [if_neg (by omega : ¬(1 : Nat) = 0)]
      rw [decodeBlock_record_key r _ _ _ hk]
      simp only [exbind_ok]
      rw [decodeBlock_encode r.value _ _ _ hv]
      simp only [exbind_ok]
      by_cases hmem : r.key ∈ acc.map Record.key
      · rw [add_dup _ _ _ _ hmem]
        exact ⟨_, rfl⟩
      · rw [add_fresh _ _ _ _ _ _ hmem]
        simp only [exbind_ok]
        rw [readByte_cons]
        simp only [exbind_ok, incrementRead]
        apply ih (acc ++ [r]) f (cnt + 1) _ tail
        · simp only [List.length_cons] at hfuel
          omega
        · exact fun x hx => hlens x (by simp [hx])
        · exact nodup_snoc_key acc r hacc hmem
        · rw [show (acc ++ [r]) ++ rs' = acc ++ r :: rs' by simp]
          exact hdup

/-! ## Insert counting -/

theorem insCount_append (a b : List Ev) : insCount (a ++ b) = insCount a + insCount b :=
  List.countP_append _ a b

theorem insCount_readEvs (l : List Nat) : insCount (l.map Ev.readByteEv) = 0 := by
  induction l with
  | nil => rfl
  | cons b l ih => simp [insCount, List.countP_cons, ih]

theorem insCount_insertEv (k : List Nat) : insCount [Ev.insertEv k] = 1 := rfl

theorem insCount_readEv (b : Nat) : insCount [Ev.readByteEv b] = 0 := rfl

theorem insCount_incrementEv : insCount [Ev.incrementEv] = 0 := rfl

theorem fresh_of_nodup_middle (acc : List Record) (r : Record) (rs' : List Record)
    (hnd : ((acc ++ r :: rs').map Record.key).Nodup) :
    r.key ∉ acc.map Record.key := by
  have hnd_maps : (List.map Record.key acc ++ r.key :: List.map Record.key rs').Nodup := by
    simpa [List.map_append] using hnd
  have hmid := List.nodup_middle.mp hnd_maps
  exact fun hmem => (List.nodup_cons.mp hmid).1 (List.mem_append_left _ hmem)

/-! ## The replay loop on a stream truncated before a presence flag -/

theorem replayLoop_trunc (rest : List Record) :
    ∀ (r0 : Record) (acc : List Record) (fuel cnt : Nat) (evs : List Ev),
      rest.length < fuel →
      lensOK (r0 :: rest) →
      ((acc ++ r0 :: rest).map Record.key).Nodup →
      ∃ st, replayLoop fuel acc 1 ⟨encodeRecord r0 ++ (serializeRecords rest).1, evs, cnt⟩
          = .error (.streamFault, st)
        ∧ st.recordsRead = cnt + rest.length
        ∧ insCount st.events = insCount evs + rest.length + 1 := by
  induction rest with
  | nil =>
    intro r0 acc fuel cnt evs hfuel hlens hnd
    cases fuel with
    | zero => exact absurd hfuel (by omega)
    | succ f =>
      have hk := (hlens r0 (by simp)).1
      have hv := (hlens r0 (by simp)).2
      have hfresh : r0.key ∉ acc.map Record.key :=
        fresh_of_nodup_middle acc r0 [] hnd
      rw [show (serializeRecords ([] : List Record)).1 = [] from rfl]
      simp only [replayLoop]
      rw [if_neg (by omega : ¬(1 : Nat) = 0)]
      rw [decodeBlock_record_key r0 [] _ _ hk]
      simp only [exbind_ok]
      rw [decodeBlock_encode r0.value [] _ _ hv]
      simp only [exbind_ok]
      rw [add_fresh _ _ _ _ _ _ hfresh]
      simp only [exbind_ok]
      rw [readByte_nil]
      refine ⟨_, rfl, by simp, ?_⟩
      simp only [insCount_append, insCount_readEvs, insCount_insertEv, List.length_nil]
  | cons r1 rest' ih =>
    intro r0 acc fuel cnt evs hfuel hlens hnd
    cases fuel with
    | zero => exact absurd hfuel (by omega)
    | succ f =>
      have hk := (hlens r0 (by simp)).1
      have hv := (hlens r0 (by simp)).2
      have hfresh : r0.key ∉ acc.map Record.key :=
        fresh_of_nodup_middle acc r0 (r1 :: rest') hnd
      rw [show (serializeRecords (r1 :: rest')).1
          = 1 :: (encodeRecord r1 ++ (serializeRecords rest').1) from rfl]
      simp only [replayLoop]
      rw [if_neg (by omega : ¬(1 : Nat) = 0)]
      rw [decodeBlock_record_key r0 _ _ _ hk]
      simp only [exbind_ok]
      rw [decodeBlock_encode r0.value _ _ _ hv]
      simp only [exbind_ok]
      rw [add_fresh _ _ _ _ _ _ hfresh]
      simp only [exbind_ok]
      rw [readByte_cons]
      simp only [exbind_ok, incrementRead]
      obtain ⟨st, hst, hcnt, hins⟩ := ih r1 (acc ++ [r0]) f (cnt + 1)
        (evs ++ (encodeU32 r0.key.length ++ r0.key).map Ev.readByteEv
             ++ (encodeU32 r0.value.length ++ r0.value).map Ev.readByteEv
             ++ [Ev.insertEv r0.key] ++ [Ev.readByteEv 1] ++ [Ev.incrementEv])
        (by simp only [List.length_cons] at hfuel; omega)
        (fun x hx => hlens x (List.mem_cons_of_mem r0 hx))
        (by rw [show (acc ++ [r0]) ++ r1 :: rest' = acc ++ r0 :: r1 :: rest' by simp]; exact hnd)
      refine ⟨st, ?_, by simp only [List.length_cons]; omega, ?_⟩
      · simpa [List.append_assoc] using hst
      · rw [hins]
        simp only [insCount_append, insCount_readEvs, insCount_insertEv, insCount_readEv,
          insCount_incrementEv, List.length_cons]
        omega

/-! ## Stream bracketing: which events a phase may add -/

/-- A trace fragment that touches neither `Begin` nor `End`. -/
def streamNeutral (l : List Ev) : Prop :=
  ∀ e ∈ l, e ≠ Ev.beginStream ∧ e ≠ Ev.endStream

/-- The deserializer state an outcome leaves behind, on success or fault. -/
def postState {α : Type} : Except (SerError × DState) (α × DState) → DState
  | .ok (_, st) => st
  | .error (_, st) => st

/-- `st'` extends `st`'s trace by bracket-free events only. -/
def EvExtend (st st' : DState) : Prop :=
  ∃ δ, st'.events = st.events ++ δ ∧ streamNeutral δ

theorem streamNeutral_nil : streamNeutral [] := by
  intro e he
  simp at he

theorem streamNeutral_append {a b : List Ev}
    (ha : streamNeutral a) (hb : streamNeutral b) : streamNeutral (a ++ b) := by
  intro e he
  rcases List.mem_append.mp he with h | h
  · exact ha e h
  · exact hb e h

theorem streamNeutral_readEvs (l : List Nat) : streamNeutral (l.map Ev.readByteEv) := by
  intro e he
  obtain ⟨b, _, rfl⟩ := List.mem_map.mp he
  exact ⟨by simp, by simp⟩

theorem evExtend_refl (st : DState) : EvExtend st st :=
  ⟨[], by simp, streamNeutral_nil⟩

theorem evExtend_trans {a b c : DState} (h1 : EvExtend a b) (h2 : EvExtend b c) :
    EvExtend a c := by
  obtain ⟨d1, e1, n1⟩ := h1
  obtain ⟨d2, e2, n2⟩ := h2
  exact ⟨d1 ++ d2, by rw [e2, e1, List.append_assoc], streamNeutral_append n1 n2⟩

theorem evExtend_readByte (st : DState) : EvExtend st (postState (readByte st)) := by
  obtain ⟨d, e, c⟩ := st
  cases d with
  | nil => exact evExtend_refl _
  | cons b rest =>
    refine ⟨[Ev.readByteEv b], rfl, ?_⟩
    intro x hx
    simp only [List.mem_singleton] at hx
    subst hx
    exact ⟨by simp, by simp⟩

theorem evExtend_readBytes (n : Nat) (st : DState) :
    EvExtend st (postState (readBytes n st)) := by
  unfold readBytes
  by_cases h : n ≤ st.data.length
  · rw [if_pos h]
    exact ⟨(st.data.take n).map Ev.readByteEv, rfl, streamNeutral_readEvs _⟩
  · rw [if_neg h]
    exact evExtend_refl _

theorem evExtend_bind {α β : Type} (m : Except (SerError × DState) (α × DState))
    (f : α × DState → Except (SerError × DState) (β × DState)) (st : DState)
    (hm : EvExtend st (postState m))
    (hf : ∀ a st1, m = .ok (a, st1) → EvExtend st1 (postState (f (a, st1)))) :
    EvExtend st (postState (m >>= f)) := by
  cases m with
  | error e => exact hm
  | ok p =>
    obtain ⟨a, st1⟩ := p
    exact evExtend_trans hm (hf a st1 rfl)

theorem evExtend_readU32 (st : DState) : EvExtend st (postState (readU32 st)) := by
  unfold readU32
  apply evExtend_bind _ _ _ (evExtend_readBytes 4 st)
  intro bs st1 _
  exact evExtend_refl st1

theorem evExtend_decodeBlock (st : DState) : EvExtend st (postState (decodeBlock st)) := by
  unfold decodeBlock
  apply evExtend_bind _ _ _ (evExtend_readU32 st)
  intro n st1 _
  apply evExtend_bind _ _ _ (evExtend_readBytes n st1)
  intro bs st2 _
  exact evExtend_refl st2

theorem evExtend_add (records : List Record) (k v : List Nat) (st : DState) :
    EvExtend st (postState (WritableHashTable.Add records k v st)) := by
  unfold WritableHashTable.Add
  by_cases h : k ∈ records.map Record.key
  · rw [if_pos h]
    exact evExtend_refl st
  · rw [if_neg h]
    refine ⟨[Ev.insertEv k], rfl, ?_⟩
    intro x hx
    simp only [List.mem_singleton] at hx
    subst hx
    exact ⟨by simp, by simp⟩

theorem evExtend_increment (st : DState) : EvExtend st (incrementRead st) := by
  refine ⟨[Ev.incrementEv], rfl, ?_⟩
  intro x hx
  simp only [List.mem_singleton] at hx
  subst hx
  exact ⟨by simp, by simp⟩

theorem evExtend_replayLoop (fuel : Nat) :
    ∀ (acc : List Record) (flag : Nat) (st : DState),
      EvExtend st (postState (replayLoop fuel acc flag st)) := by
  induction fuel with
  | zero =>
    intro acc flag st
    exact evExtend_refl st
  | succ f ih =>
    intro acc flag st
    simp only [replayLoop]
    by_cases hflag : flag = 0
    · rw [if_pos hflag]
      exact evExtend_refl st
    · rw [if_neg hflag]
      apply evExtend_bind _ _ _ (evExtend_decodeBlock st)
      intro k st1 _
      apply evExtend_bind _ _ _ (evExtend_decodeBlock st1)
      intro v st2 _
      apply evExtend_bind _ _ _ (evExtend_add acc k v st2)
      intro recs st3 _
      apply evExtend_bind _ _ _ (evExtend_readByte st3)
      intro fl st4 _
      exact evExtend_trans (evExtend_increment st4) (ih recs fl (incrementRead st4))

/-! ## Trace shape of a successful deserialization -/

theorem currentDeser_ok_events (n : Nat) (st : DState) (t : HashTableModel) (stF : DState)
    (h : Current.Deserializer.Deserialize n st = .ok (t, stF)) :
    ∃ δ, stF.events = st.events ++ δ ++ [Ev.endStream] ∧ streamNeutral δ := by
  unfold Current.Deserializer.Deserialize at h
  cases h1 : readBytes n st with
  | error e =>
    rw [h1] at h
    simp [exbind_error] at h
  | ok p =>
    obtain ⟨setting, st1⟩ := p
    rw [h1] at h
    simp only [exbind_ok] at h
    cases h2 : readByte st1 with
    | error e =>
      rw [h2] at h
      simp [exbind_error] at h
    | ok p2 =>
      obtain ⟨flag, st2⟩ := p2
      rw [h2] at h
      simp only [exbind_ok] at h
      cases h3 : replayLoop (st1.data.length + 1) [] flag st2 with
      | error e =>
        rw [h3] at h
        simp [exbind_error] at h
      | ok p3 =>
        obtain ⟨recs, st3⟩ := p3
        rw [h3] at h
        simp only [exbind_ok] at h
        have e1 : EvExtend st st1 := by
          have := evExtend_readBytes n st
          rw [h1] at this
          exact this
        have e2 : EvExtend st1 st2 := by
          have := evExtend_readByte st1
          rw [h2] at this
          exact this
        have e3 : EvExtend st2 st3 := by
          have := evExtend_replayLoop (st1.data.length + 1) [] flag st2
          rw [h3] at this
          exact this
        obtain ⟨δ, hδ, hn⟩ := evExtend_trans (evExtend_trans e1 e2) e3
        have hstF : stF = { st3 with events := st3.events ++ [Ev.endStream] } :=
          (congrArg Prod.snd (Except.ok.inj h)).symm
        refine ⟨δ, ?_, hn⟩
        rw [hstF]
        simp [hδ, List.append_assoc]

theorem driver_ok_events (n : Nat) (input : List Nat) (t : HashTableModel) (stF : DState)
    (h : Deserializer.Deserialize n (Current.c_version :: input) = .ok (t, stF)) :
    ∃ δ, stF.events = [Ev.beginStream, Ev.readByteEv Current.c_version]
        ++ δ ++ [Ev.endStream] ∧ streamNeutral δ := by
  simp only [Deserializer.Deserialize] at h
  rw [readByte_cons] at h
  simp only [exbind_ok] at h
  rw [if_pos trivial] at h
  obtain ⟨δ, hδ, hn⟩ := currentDeser_ok_events n _ t stF h
  refine ⟨δ, ?_, hn⟩
  simpa using hδ

/-! ## Remaining helpers -/

theorem insCount_beginEv : insCount [Ev.beginStream] = 0 := rfl

theorem count_endStream_neutral {δ : List Ev} (hn : streamNeutral δ) :
    δ.count Ev.endStream = 0 :=
  List.count_eq_zero.mpr fun hmem => (hn _ hmem).2 rfl

theorem serialize_events (t : HashTableModel) :
    (Serializer.Serialize t).events
      = Ev.beginStream :: ((Serializer.Serialize t).output.map Ev.writeByteEv
          ++ [Ev.endStream]) := rfl

/-- Dispatch failure on any tag other than the current version
(Serializer.h lines 254-257): shared between the version-dispatch claims. -/
theorem deserialize_unknown_version (settingSize v : Nat) (rest : List Nat)
    (hv : v ≠ Current.c_version) :
    Deserializer.Deserialize settingSize (v :: rest)
      = .error (.unsupportedVersion v,
          ⟨rest, [Ev.beginStream, Ev.readByteEv v], 0⟩) := by
  simp only [Deserializer.Deserialize]
  rw [readByte_cons]
  simp only [exbind_ok]
  rw [if_neg hv]
  rfl

/-! ## Claims -/

/-- C1: for every table `T` with unique keys (any insertion/traversal
order, any record count `N ≥ 0`), deserializing the byte stream produced
by serializing `T` succeeds and yields a table with the same
`TableSettings` and exactly the same set of (key, value) pairs as `T`. -/
theorem serialize_deserialize_roundtrip (t : HashTableModel)
    (hlens : lensOK t.records) (hnd : (t.records.map Record.key).Nodup) :
    ∃ t' st, Deserializer.Deserialize t.setting.length (Serializer.Serialize t).output
        = .ok (t', st)
      ∧ t'.setting = t.setting
      ∧ (∀ r : Record, r ∈ t'.records ↔ r ∈ t.records) := by
  obtain ⟨evs', hE⟩ := deserialize_ok t.setting t.records [] hlens hnd
  simp only [List.append_nil] at hE
  refine ⟨{ setting := t.setting, records := t.records, recordsWritten := 0,
            recordsRead := t.records.length },
          ⟨[], evs', t.records.length⟩, ?_, rfl, fun r => Iff.rfl⟩
  rw [serialize_output]
  exact hE

/-- C1 witness: the round-trip property at a concrete two-record table. -/
theorem serialize_deserialize_roundtrip_witness :
    ∃ t' st, Deserializer.Deserialize 1
        (Serializer.Serialize ⟨[7], [⟨[1], [2]⟩, ⟨[3], [4]⟩], 5, 6⟩).output
        = .ok (t', st)
      ∧ t'.setting = [7]
      ∧ (∀ r : Record, r ∈ t'.records ↔ r ∈ [(⟨[1], [2]⟩ : Record), ⟨[3], [4]⟩]) :=
  serialize_deserialize_roundtrip ⟨[7], [⟨[1], [2]⟩, ⟨[3], [4]⟩], 5, 6⟩
    (by decide) (by decide)

/-- C2: a stream whose record section carries a duplicated key makes
`Deserialize` fail with the replay-guard error (the guard's
`RegisterAction` throws), and no table is returned. -/
theorem duplicate_key_stream_fails (settings : List Nat) (rs : List Record) (tail : List Nat)
    (hlens : lensOK rs) (hdup : ¬ (rs.map Record.key).Nodup) :
    ∃ st, Deserializer.Deserialize settings.length
        (Current.c_version :: (settings ++ (bytesFor rs ++ tail)))
      = .error (.replayInvariantViolation, st) := by
  have hfuel : rs.length < (headFlag rs :: (bodyBytes rs ++ tail)).length := by
    have := bodyBytes_length_ge rs
    simp [List.length_append]
    omega
  simp only [Deserializer.Deserialize, Current.Deserializer.Deserialize]
  rw [readByte_cons]
  simp only [exbind_ok]
  rw [if_pos trivial]
  rw [readBytes_exact settings (bytesFor rs ++ tail)]
  simp only [exbind_ok]
  rw [bytesFor_cons_shape]
  rw [readByte_cons]
  simp only [exbind_ok]
  obtain ⟨st, hE⟩ := replayLoop_dup rs []
    ((headFlag rs :: (bodyBytes rs ++ tail)).length + 1) 0
    ([Ev.beginStream] ++ [Ev.readByteEv Current.c_version]
      ++ settings.map Ev.readByteEv ++ [Ev.readByteEv (headFlag rs)])
    tail (by omega) hlens (by simp) (by simpa using hdup)
  refine ⟨st, ?_⟩
  simp only [List.append_assoc] at hE ⊢
  rw [hE]
  rfl

/-- C2 witness: two records sharing key `[1]`. -/
theorem duplicate_key_stream_fails_witness :
    ∃ st, Deserializer.Deserialize 0
        (Current.c_version :: ([] ++ (bytesFor [⟨[1], [2]⟩, ⟨[1], [3]⟩] ++ [])))
      = .error (.replayInvariantViolation, st) :=
  duplicate_key_stream_fails [] [⟨[1], [2]⟩, ⟨[1], [3]⟩] [] (by decide) (by decide)

/-- C3: a stream whose first byte is not the registered version tag makes
`Deserialize` fail with the unsupported-version error naming that tag,
leaving every byte after the version byte unconsumed. -/
theorem unsupported_version_fails (settingSize v : Nat) (rest : List Nat)
    (hv : v ≠ Current.c_version) :
    Deserializer.Deserialize settingSize (v :: rest)
      = .error (.unsupportedVersion v,
          ⟨rest, [Ev.beginStream, Ev.readByteEv v], 0⟩) :=
  deserialize_unknown_version settingSize v rest hv

/-- C3 witness: version byte 255. -/
theorem unsupported_version_fails_witness :
    Deserializer.Deserialize 0 (255 :: [9, 9])
      = .error (.unsupportedVersion 255,
          ⟨[9, 9], [Ev.beginStream, Ev.readByteEv 255], 0⟩) :=
  unsupported_version_fails 0 255 [9, 9] (by decide)

/-- C4: serializing a table with zero records emits exactly
`[VersionTag = 3] [settings] [0]`, and deserializing that stream yields
an empty table with the same settings. -/
theorem empty_table_bytes (t : HashTableModel) (hempty : t.records = []) :
    Current.c_version = 3
    ∧ (Serializer.Serialize t).output = 3 :: (t.setting ++ [0])
    ∧ ∃ st, Deserializer.Deserialize t.setting.length (Serializer.Serialize t).output
        = .ok ({ setting := t.setting, records := [], recordsWritten := 0,
                 recordsRead := 0 }, st) := by
  have hout : (Serializer.Serialize t).output = 3 :: (t.setting ++ [0]) := by
    rw [serialize_output, hempty]
    rfl
  refine ⟨rfl, hout, ?_⟩
  obtain ⟨evs', hE⟩ := deserialize_ok t.setting [] []
    (by intro r hr; simp at hr) (by simp)
  refine ⟨⟨[], evs', 0⟩, ?_⟩
  rw [hout]
  simpa [Current.c_version] using hE

/-- C4 witness: a concrete empty table with a two-byte settings blob. -/
theorem empty_table_bytes_witness :
    Current.c_version = 3
    ∧ (Serializer.Serialize ⟨[5, 6], [], 3, 4⟩).output = 3 :: ([5, 6] ++ [0])
    ∧ ∃ st, Deserializer.Deserialize 2 (Serializer.Serialize ⟨[5, 6], [], 3, 4⟩).output
        = .ok ({ setting := [5, 6], records := [], recordsWritten := 0,
                 recordsRead := 0 }, st) :=
  empty_table_bytes ⟨[5, 6], [], 3, 4⟩ rfl

/-- C5: `Serialize` leaves the records-written counter at exactly `N`
(independently of its prior value: it is reset to zero and incremented
once per record), and deserializing the stream leaves the new table's
records-read counter at `N`. -/
theorem counters_after_roundtrip (t : HashTableModel)
    (hlens : lensOK t.records) (hnd : (t.records.map Record.key).Nodup) :
    (Serializer.Serialize t).table.recordsWritten = t.records.length
    ∧ ∃ t' st, Deserializer.Deserialize t.setting.length (Serializer.Serialize t).output
        = .ok (t', st) ∧ t'.recordsRead = t.records.length := by
  refine ⟨by rw [serialize_table], ?_⟩
  obtain ⟨evs', hE⟩ := deserialize_ok t.setting t.records [] hlens hnd
  simp only [List.append_nil] at hE
  refine ⟨{ setting := t.setting, records := t.records, recordsWritten := 0,
            recordsRead := t.records.length },
          ⟨[], evs', t.records.length⟩, ?_, rfl⟩
  rw [serialize_output]
  exact hE

/-- C5 witness: a two-record table whose stale counters are nonzero. -/
theorem counters_after_roundtrip_witness :
    (Serializer.Serialize ⟨[9], [⟨[4], []⟩, ⟨[5], [6]⟩], 17, 23⟩).table.recordsWritten = 2
    ∧ ∃ t' st, Deserializer.Deserialize 1
        (Serializer.Serialize ⟨[9], [⟨[4], []⟩, ⟨[5], [6]⟩], 17, 23⟩).output
        = .ok (t', st) ∧ t'.recordsRead = 2 :=
  counters_after_roundtrip ⟨[9], [⟨[4], []⟩, ⟨[5], [6]⟩], 17, 23⟩ (by decide) (by decide)

/-- C6 counterexample: tag 2 — a tag value preceding the current version
3 — does not select a deprecated reader; it fails with the
unsupported-version error, because the `Deprecated` namespace registers
no reader at all. -/
theorem prior_tag_two_not_dispatchable :
    Deserializer.Deserialize 0 [2]
      = .error (.unsupportedVersion 2,
          ⟨[], [Ev.beginStream, Ev.readByteEv 2], 0⟩) := rfl

/-- C6 amended: the `Deprecated` registry of this source is empty, so no
prior version tag is dispatchable; `Deserialize` dispatches a reader only
for the current tag and fails with `UnsupportedVersion` naming the tag on
every tag outside the registered set. -/
theorem only_current_version_dispatchable :
    deprecatedVersions = []
    ∧ ∀ (settingSize v : Nat) (rest : List Nat),
        v ∉ Current.c_version :: deprecatedVersions →
        Deserializer.Deserialize settingSize (v :: rest)
          = .error (.unsupportedVersion v,
              ⟨rest, [Ev.beginStream, Ev.readByteEv v], 0⟩) := by
  refine ⟨rfl, ?_⟩
  intro settingSize v rest hv
  have hv3 : v ≠ Current.c_version := by
    simpa [deprecatedVersions] using hv
  exact deserialize_unknown_version settingSize v rest hv3

/-- C6 amended witness: tag 7 with trailing bytes left unconsumed. -/
theorem only_current_version_dispatchable_witness :
    deprecatedVersions = []
    ∧ Deserializer.Deserialize 0 (7 :: [4])
        = .error (.unsupportedVersion 7,
            ⟨[4], [Ev.beginStream, Ev.readByteEv 7], 0⟩) :=
  ⟨only_current_version_dispatchable.1,
   only_current_version_dispatchable.2 0 7 [4] (by decide)⟩

/-- C7 counterexample: the stream `[3, 1, klen=1, 7, vlen=1, 9]` is cut
off right before the second presence flag.  The replay body has completed
one insert (one `insertEv`), yet the records-read counter at the fault is
0, not 1 — refuting the claim that the counter is incremented before the
next presence flag is read and hence reflects every insert so far. -/
theorem increment_not_before_flag_read :
    resultErr (Deserializer.Deserialize 0 [3, 1, 1, 0, 0, 0, 7, 1, 0, 0, 0, 9])
        = some SerError.streamFault
    ∧ insCount (resultState
        (Deserializer.Deserialize 0 [3, 1, 1, 0, 0, 0, 7, 1, 0, 0, 0, 9])).events = 1
    ∧ (resultState
        (Deserializer.Deserialize 0 [3, 1, 1, 0, 0, 0, 7, 1, 0, 0, 0, 9])).recordsRead
        = 0 :=
  ⟨rfl, rfl, rfl⟩

/-- C7 amended: in the replay body the order is decode, insert, read the
next presence flag, and only then increment records-read.  Hence on a
stream truncated right before a presence flag, the counter lags the
number of completed inserts by exactly one: `Deserialize` fails with the
stream-fault error in a state with `rest.length + 1` inserts but only
`rest.length` counter increments. -/
theorem increment_after_flag_read (settings : List Nat) (r0 : Record) (rest : List Record)
    (hlens : lensOK (r0 :: rest)) (hnd : ((r0 :: rest).map Record.key).Nodup) :
    ∃ st, Deserializer.Deserialize settings.length
        (Current.c_version :: (settings ++ (serializeRecords (r0 :: rest)).1))
      = .error (.streamFault, st)
      ∧ st.recordsRead + 1 = insCount st.events
      ∧ insCount st.events = rest.length + 1 := by
  have hlen : rest.length ≤ (serializeRecords rest).1.length :=
    serializeRecords_length_ge rest
  simp only [Deserializer.Deserialize, Current.Deserializer.Deserialize]
  rw [readByte_cons]
  simp only [exbind_ok]
  rw [if_pos trivial]
  rw [readBytes_exact settings ((serializeRecords (r0 :: rest)).1)]
  simp only [exbind_ok]
  rw [show (serializeRecords (r0 :: rest)).1
      = 1 :: (encodeRecord r0 ++ (serializeRecords rest).1) from rfl]
  rw [readByte_cons]
  simp only [exbind_ok]
  obtain ⟨st, hst, hcnt, hins⟩ := replayLoop_trunc rest r0 []
    ((1 :: (encodeRecord r0 ++ (serializeRecords rest).1)).length + 1) 0
    ([Ev.beginStream] ++ [Ev.readByteEv Current.c_version]
      ++ settings.map Ev.readByteEv ++ [Ev.readByteEv 1])
    (by simp only [List.length_cons, List.length_append]; omega)
    hlens (by simpa using hnd)
  have hE0 : insCount ([Ev.beginStream] ++ [Ev.readByteEv Current.c_version]
      ++ settings.map Ev.readByteEv ++ [Ev.readByteEv 1]) = 0 := by
    simp only [insCount_append, insCount_readEvs, insCount_beginEv, insCount_readEv]
  refine ⟨st, ?_, by omega, by omega⟩
  simp only [List.append_assoc] at hst ⊢
  rw [hst]
  rfl

/-- C7 amended witness: a two-record truncated stream faults with one
increment against two inserts. -/
theorem increment_after_flag_read_witness :
    ∃ st, Deserializer.Deserialize 0
        (Current.c_version :: ([] ++ (serializeRecords [⟨[1], [2]⟩, ⟨[3], [4]⟩]).1))
      = .error (.streamFault, st)
      ∧ st.recordsRead + 1 = insCount st.events
      ∧ insCount st.events = 2 :=
  increment_after_flag_read [] ⟨[1], [2]⟩ [⟨[3], [4]⟩] (by decide) (by decide)

/-- C8: the serializing driver delegates unconditionally to the
current-version writer, whose trace opens with `Begin` and closes with
`End`; the deserializing driver performs `Begin` itself before the
version-byte read, and on a successful replay the selected reader calls
`End` exactly once, as the last stream operation. -/
theorem driver_stream_bracketing (t : HashTableModel)
    (hlens : lensOK t.records) (hnd : (t.records.map Record.key).Nodup) :
    Serializer.Serialize t = Current.Serializer.Serialize t
    ∧ (Serializer.Serialize t).events.head? = some Ev.beginStream
    ∧ (Serializer.Serialize t).events.getLast? = some Ev.endStream
    ∧ ∃ t' st, Deserializer.Deserialize t.setting.length (Serializer.Serialize t).output
        = .ok (t', st)
      ∧ st.events.take 2 = [Ev.beginStream, Ev.readByteEv Current.c_version]
      ∧ st.events.count Ev.endStream = 1
      ∧ st.events.getLast? = some Ev.endStream := by
  refine ⟨rfl, rfl, ?_, ?_⟩
  · rw [serialize_events]
    rw [show Ev.beginStream :: ((Serializer.Serialize t).output.map Ev.writeByteEv
        ++ [Ev.endStream])
        = (Ev.beginStream :: (Serializer.Serialize t).output.map Ev.writeByteEv)
          ++ [Ev.endStream] from rfl]
    exact List.getLast?_concat _
  · obtain ⟨evs', hE⟩ := deserialize_ok t.setting t.records [] hlens hnd
    simp only [List.append_nil] at hE
    have hE' : Deserializer.Deserialize t.setting.length (Serializer.Serialize t).output
        = .ok ({ setting := t.setting, records := t.records, recordsWritten := 0,
                 recordsRead := t.records.length },
               ⟨[], evs', t.records.length⟩) := by
      rw [serialize_output]
      exact hE
    obtain ⟨δ, hδ, hn⟩ := driver_ok_events t.setting.length
      (t.setting ++ bytesFor t.records) _ _ hE
    have hevs : evs' = [Ev.beginStream, Ev.readByteEv Current.c_version]
        ++ δ ++ [Ev.endStream] := hδ
    refine ⟨_, _, hE', ?_, ?_, ?_⟩
    · show evs'.take 2 = [Ev.beginStream, Ev.readByteEv Current.c_version]
      rw [hevs, List.take_append_of_le_length (by simp),
          List.take_append_of_le_length (by simp)]
      rfl
    · show evs'.count Ev.endStream = 1
      rw [hevs, List.count_append, List.count_append, count_endStream_neutral hn]
      decide
    · show evs'.getLast? = some Ev.endStream
      rw [hevs]
      exact List.getLast?_concat _

/-- C8 witness: the bracketing facts at a concrete one-record table. -/
theorem driver_stream_bracketing_witness :
    Serializer.Serialize ⟨[4], [⟨[2], [3]⟩], 0, 0⟩
        = Current.Serializer.Serialize ⟨[4], [⟨[2], [3]⟩], 0, 0⟩
    ∧ (Serializer.Serialize ⟨[4], [⟨[2], [3]⟩], 0, 0⟩).events.head? = some Ev.beginStream
    ∧ (Serializer.Serialize ⟨[4], [⟨[2], [3]⟩], 0, 0⟩).events.getLast? = some Ev.endStream
    ∧ ∃ t' st, Deserializer.Deserialize 1
        (Serializer.Serialize ⟨[4], [⟨[2], [3]⟩], 0, 0⟩).output = .ok (t', st)
      ∧ st.events.take 2 = [Ev.beginStream, Ev.readByteEv Current.c_version]
      ∧ st.events.count Ev.endStream = 1
      ∧ st.events.getLast? = some Ev.endStream :=
  driver_stream_bracketing ⟨[4], [⟨[2], [3]⟩], 0, 0⟩ (by decide) (by decide)

/-- C9: the record codec writes key length, key bytes, value length,
value bytes in that order, each length as a fixed-width (four-byte)
unsigned 32-bit integer; the decoder reads the same fields symmetrically,
sizing each buffer exactly by the preceding length field, and zero
lengths are legal and round-trip. -/
theorem record_codec_contract (r : Record) (tail : List Nat) (evs : List Ev) (cnt : Nat)
    (hk : r.key.length < 4294967296) (hv : r.value.length < 4294967296) :
    (∀ n : Nat, (encodeU32 n).length = 4)
    ∧ encodeRecord r = encodeU32 r.key.length ++ r.key
        ++ encodeU32 r.value.length ++ r.value
    ∧ decodeBlock ⟨encodeRecord r ++ tail, evs, cnt⟩
        = .ok (r.key, ⟨encodeU32 r.value.length ++ (r.value ++ tail),
            evs ++ (encodeU32 r.key.length ++ r.key).map Ev.readByteEv, cnt⟩)
    ∧ decodeBlock ⟨encodeU32 r.value.length ++ (r.value ++ tail),
          evs ++ (encodeU32 r.key.length ++ r.key).map Ev.readByteEv, cnt⟩
        = .ok (r.value, ⟨tail,
            (evs ++ (encodeU32 r.key.length ++ r.key).map Ev.readByteEv)
              ++ (encodeU32 r.value.length ++ r.value).map Ev.readByteEv, cnt⟩) :=
  ⟨encodeU32_length, rfl,
   decodeBlock_record_key r tail evs cnt hk,
   decodeBlock_encode r.value tail
     (evs ++ (encodeU32 r.key.length ++ r.key).map Ev.readByteEv) cnt hv⟩

/-- C9 witness: the zero-length-key, zero-length-value record
round-trips through the codec. -/
theorem record_codec_contract_witness :
    (∀ n : Nat, (encodeU32 n).length = 4)
    ∧ encodeRecord ⟨[], []⟩ = encodeU32 0 ++ [] ++ encodeU32 0 ++ []
    ∧ decodeBlock ⟨encodeRecord ⟨[], []⟩ ++ [5], [], 0⟩
        = .ok ([], ⟨encodeU32 0 ++ ([] ++ [5]),
            [] ++ (encodeU32 0 ++ []).map Ev.readByteEv, 0⟩)
    ∧ decodeBlock ⟨encodeU32 0 ++ ([] ++ [5]),
          [] ++ (encodeU32 0 ++ []).map Ev.readByteEv, 0⟩
        = .ok ([], ⟨[5],
            ([] ++ (encodeU32 0 ++ []).map Ev.readByteEv)
              ++ (encodeU32 0 ++ []).map Ev.readByteEv, 0⟩) :=
  record_codec_contract ⟨[], []⟩ [5] [] 0 (by decide) (by decide)

end L4
